import Mathlib

/-!
Verification development for the geometry core of the `nhls` stencil solver.

We shallowly embed the integer geometry used by the aperiodic (AP) planner:
axis-aligned bounding boxes (`util/aabb.rs`), frustrum algebra
(`fft_solver/ap_frustrum.rs`), and the trapezoid solve region bookkeeping
(`solver/trapezoid.rs`).  Machine integers (`i32`, `usize`) are embedded as
`ℤ` and `ℕ`; none of the verified properties depend on wrap-around
behaviour.  A `D × 2` bounds matrix is embedded as `Fin D → Fin 2 → ℤ`
with column `0` the min corner and column `1` the max corner, exactly as in
the source.
-/

namespace NHLS

/-- Integer coordinate vector of dimension `D` (`Coord<GRID_DIMENSION>` in
`util/mod.rs`: an `SVector<i32, D>`). -/
def Coord (D : ℕ) : Type := Fin D → ℤ

instance {D : ℕ} : DecidableEq (Coord D) :=
  inferInstanceAs (DecidableEq (Fin D → ℤ))

/-- Raw bounds matrix (`Bounds<DIMENSION>` in `util/aabb.rs`): a `D × 2`
integer matrix where column 0 is the min corner and column 1 the max corner. -/
def Bounds (D : ℕ) : Type := Fin D → Fin 2 → ℤ

instance {D : ℕ} : DecidableEq (Bounds D) :=
  inferInstanceAs (DecidableEq (Fin D → Fin 2 → ℤ))

/-- Read entry `(d, i)` of a bounds matrix at a raw `ℕ` row index
(out-of-range rows read as `0`; all uses in the development stay in range,
mirroring the panicking indexing of the source). -/
def getB {D : ℕ} (b : Bounds D) (d : ℕ) (i : Fin 2) : ℤ :=
  if h : d < D then b ⟨d, h⟩ i else 0

/-- Write entry `(d, i)` of a bounds matrix at a raw `ℕ` row index
(out-of-range writes are dropped). -/
def setB {D : ℕ} (b : Bounds D) (d : ℕ) (i : Fin 2) (v : ℤ) : Bounds D :=
  fun d' i' => if d'.val = d ∧ i' = i then v else b d' i'

/-- Axis Aligned Bounding Box, inclusive of both corners
(`AABB<DIMENSION>` in `util/aabb.rs`). -/
structure AABB (D : ℕ) where
  bounds : Bounds D

theorem AABB.ext_iff_bounds {D : ℕ} {a b : AABB D} :
    a = b ↔ a.bounds = b.bounds := by
  cases a
  cases b
  simp

instance {D : ℕ} : DecidableEq (AABB D) := fun a b =>
  decidable_of_iff (a.bounds = b.bounds) AABB.ext_iff_bounds.symm

namespace AABB

variable {D : ℕ}

/-- `AABB::exclusive_bounds`: per-dimension exclusive size `max - min + 1`. -/
def exclusive_bounds (a : AABB D) : Coord D :=
  fun d => a.bounds d 1 - a.bounds d 0 + 1

/-- `AABB::contains`: whether a coordinate lies inside the box. -/
def contains (a : AABB D) (c : Coord D) : Prop :=
  ∀ d : Fin D, a.bounds d 0 ≤ c d ∧ c d ≤ a.bounds d 1

instance (a : AABB D) (c : Coord D) : Decidable (a.contains c) :=
  inferInstanceAs (Decidable (∀ d : Fin D, _ ∧ _))

/-- `AABB::contains_aabb`: whether another AABB is contained in this one. -/
def contains_aabb (a other : AABB D) : Prop :=
  ∀ d : Fin D, a.bounds d 0 ≤ other.bounds d 0 ∧ other.bounds d 1 ≤ a.bounds d 1

instance (a b : AABB D) : Decidable (a.contains_aabb b) :=
  inferInstanceAs (Decidable (∀ d : Fin D, _ ∧ _))

/-- `AABB::check_validity`: `min ≤ max` in every dimension. -/
def check_validity (a : AABB D) : Prop :=
  ∀ d : Fin D, a.bounds d 0 ≤ a.bounds d 1

instance (a : AABB D) : Decidable a.check_validity :=
  inferInstanceAs (Decidable (∀ d : Fin D, _ ≤ _))

/-- `AABB::add_bounds_diff`: element-wise add a bounds matrix. -/
def add_bounds_diff (a : AABB D) (diff : Bounds D) : AABB D :=
  ⟨fun d i => a.bounds d i + diff d i⟩

/-- `AABB::periodic_coord`: wrap a coordinate assumed to be at most one box
away into the box.  Per axis: below min ⇒ `max + 1 + c`, above max ⇒
`min + (c - max - 1)`, otherwise unchanged. -/
def periodic_coord (a : AABB D) (c : Coord D) : Coord D :=
  fun d =>
    if c d < a.bounds d 0 then a.bounds d 1 + 1 + c d
    else if c d > a.bounds d 1 then a.bounds d 0 + (c d - a.bounds d 1 - 1)
    else c d

/-- State of `remaining_bounds` in `AABB::decomposition` after the loop has
processed the first `d` dimensions: those rows have been replaced by
`center`'s rows. -/
def remaining_bounds (a center : AABB D) : ℕ → AABB D
  | 0 => a
  | d + 1 =>
    ⟨fun d' i =>
      if d'.val = d then center.bounds d' i
      else (remaining_bounds a center d).bounds d' i⟩

/-- `AABB::decomposition`: given `center ⊆ self`, the `D × 2` array of boxes
partitioning `self \ center`.  At dimension `d`, piece 0 caps the max of row
`d` at `center.min - 1` and piece 1 raises the min of row `d` to
`center.max + 1`, both starting from the remaining bounds. -/
def decomposition (a center : AABB D) (d : Fin D) (i : Fin 2) : AABB D :=
  let rem := (a.remaining_bounds center d.val).bounds
  if i = 0 then ⟨setB rem d.val 1 (center.bounds d 0 - 1)⟩
  else ⟨setB rem d.val 0 (center.bounds d 1 + 1)⟩

end AABB

/-- A `DecidableEq` instance for `Option` that the kernel can reduce even
when the element type's equality proofs are not definitional `rfl`
(the derived instance blocks on `Eq.rec`). -/
instance optionDecEq {α : Type} [DecidableEq α] : DecidableEq (Option α)
  | none, none => isTrue rfl
  | none, some _ => isFalse (by simp)
  | some _, none => isFalse (by simp)
  | some x, some y => decidable_of_iff (x = y) (by simp)

/-- `Side` in `fft_solver/ap_frustrum.rs`: selects one face of an AABB along
a recursion dimension. -/
inductive Side where
  | Min : Side
  | Max : Side
deriving DecidableEq

namespace Side

/-- `Side::inner_index`: column index of the inner face. -/
def inner_index : Side → Fin 2
  | Side.Min => 1
  | Side.Max => 0

/-- `Side::outer_index`: column index of the outer face. -/
def outer_index : Side → Fin 2
  | Side.Min => 0
  | Side.Max => 1

/-- `Side::inner_coef`. -/
def inner_coef : Side → ℤ
  | Side.Min => -1
  | Side.Max => 1

/-- `Side::outer_coef`. -/
def outer_coef : Side → ℤ
  | Side.Min => 1
  | Side.Max => -1

end Side

/-- `APFrustrum` in `fft_solver/ap_frustrum.rs`: an output box, a recursion
dimension, a side, and a step count. -/
structure APFrustrum (D : ℕ) where
  output_aabb : AABB D
  recursion_dimension : ℕ
  side : Side
  steps : ℕ

theorem APFrustrum.ext_iff_fields {D : ℕ} {a b : APFrustrum D} :
    a = b ↔ a.output_aabb = b.output_aabb
      ∧ a.recursion_dimension = b.recursion_dimension
      ∧ a.side = b.side ∧ a.steps = b.steps := by
  cases a
  cases b
  simp

instance {D : ℕ} : DecidableEq (APFrustrum D) := fun a b =>
  decidable_of_iff _ APFrustrum.ext_iff_fields.symm

/-- `trapezoid_input_region` in `solver/trapezoid.rs`: element-wise multiply
`stencil_slopes` by `sloped_sides`, negate the min column, scale by `steps`,
and add to the output box. -/
def trapezoid_input_region {D : ℕ} (steps : ℕ) (output_box : AABB D)
    (sloped_sides stencil_slopes : Bounds D) : AABB D :=
  let trapezoid_slopes : Bounds D := fun d i =>
    if i = 0 then -(stencil_slopes d 0 * sloped_sides d 0)
    else stencil_slopes d 1 * sloped_sides d 1
  output_box.add_bounds_diff (fun d i => (steps : ℤ) * trapezoid_slopes d i)

/-- Modelled from the spec: `frustrum_input_aabb` is referenced by
`APFrustrum::input_aabb` but its definition is not among the provided
sources.  Per the spec, `input_aabb(stencil_slopes)` element-wise multiplies
`sloped_sides × stencil_slopes`, negates the min column, multiplies by
`steps`, and adds to `output_aabb` — the same computation as
`trapezoid_input_region`. -/
def frustrum_input_aabb {D : ℕ} (steps : ℕ) (output_aabb : AABB D)
    (sloped_sides stencil_slopes : Bounds D) : AABB D :=
  trapezoid_input_region steps output_aabb sloped_sides stencil_slopes

namespace APFrustrum

variable {D : ℕ}

/-- `APFrustrum::sloped_sides`: start from the all-ones `D × 2` matrix, zero
the `(recursion_dimension, outer_index)` entry, then zero both entries of
every row `d` with `recursion_dimension + 1 ≤ d < D`. -/
def sloped_sides (f : APFrustrum D) : Bounds D :=
  fun d i =>
    if f.recursion_dimension < d.val then 0
    else if d.val = f.recursion_dimension ∧ i = f.side.outer_index then 0
    else 1

/-- `APFrustrum::input_aabb`. -/
def input_aabb (f : APFrustrum D) (stencil_slopes : Bounds D) : AABB D :=
  frustrum_input_aabb f.steps f.output_aabb f.sloped_sides stencil_slopes

/-- `APFrustrum::time_cut`: mutates `self` into the head (first `cut_steps`
steps) and returns the tail.  Embedded as a pair (mutated self, returned
option).  Returns `none`, leaving `self` untouched, when
`cut_steps ≥ steps`. -/
def time_cut (f : APFrustrum D) (cut_steps : ℕ) (stencil_slopes : Bounds D) :
    APFrustrum D × Option (APFrustrum D) :=
  if f.steps ≤ cut_steps then (f, none)
  else
    let next_frustrum : APFrustrum D :=
      ⟨f.output_aabb, f.recursion_dimension, f.side, f.steps - cut_steps⟩
    ({ f with
        output_aabb := next_frustrum.input_aabb stencil_slopes,
        steps := cut_steps },
      some next_frustrum)

/-- The first sub-frustrum pushed by `APFrustrum::decompose`: the slab of
thickness `steps - 1` hugging the outer face along `recursion_dimension`. -/
def decompose_first (f : APFrustrum D) : APFrustrum D :=
  let i_steps : ℤ := (f.steps : ℤ) - 1
  let outer_bound :=
    getB f.output_aabb.bounds f.recursion_dimension f.side.outer_index
  ⟨⟨setB f.output_aabb.bounds f.recursion_dimension f.side.inner_index
      (outer_bound + f.side.outer_coef * i_steps)⟩,
    f.recursion_dimension, f.side, f.steps⟩

/-- The `remainder` box of `APFrustrum::decompose` after the initial trim
along `recursion_dimension` and `j` further iterations of the lower-dimension
loop (which shrinks row `recursion_dimension + 1 + j'` by `steps` on both
sides). -/
def decompose_remainder (f : APFrustrum D) : ℕ → Bounds D
  | 0 =>
    setB f.output_aabb.bounds f.recursion_dimension f.side.outer_index
      (getB f.output_aabb.bounds f.recursion_dimension f.side.outer_index
        + f.side.outer_coef * (f.steps : ℤ))
  | j + 1 =>
    let d := f.recursion_dimension + 1 + j
    let b := decompose_remainder f j
    setB (setB b d 0 (getB b d 0 + (f.steps : ℤ))) d 1
      (getB b d 1 - (f.steps : ℤ))

/-- The two sub-frustrums pushed by iteration `j` of the lower-dimension loop
in `APFrustrum::decompose` (working on dimension
`d = recursion_dimension + 1 + j`). -/
def decompose_pair (f : APFrustrum D) (j : ℕ) :
    APFrustrum D × APFrustrum D :=
  let i_steps : ℤ := (f.steps : ℤ) - 1
  let d := f.recursion_dimension + 1 + j
  let rem := f.decompose_remainder j
  (⟨⟨setB rem d 1 (getB rem d 0 + i_steps)⟩, d, Side.Min, f.steps⟩,
   ⟨⟨setB rem d 0 (getB rem d 1 - i_steps)⟩, d, Side.Max, f.steps⟩)

/-- The sub-frustrums produced by the first `n` iterations of the
lower-dimension loop of `APFrustrum::decompose`, in push order. -/
def decompose_children (f : APFrustrum D) : ℕ → List (APFrustrum D)
  | 0 => []
  | n + 1 =>
    decompose_children f n ++
      [(f.decompose_pair n).1, (f.decompose_pair n).2]

/-- `APFrustrum::decompose`: the outer slab along `recursion_dimension`
followed by two side slabs for every dimension
`recursion_dimension + 1 ≤ d < D`. -/
def decompose (f : APFrustrum D) : List (APFrustrum D) :=
  f.decompose_first :: f.decompose_children (D - (f.recursion_dimension + 1))

/-- `APFrustrum::out_of_bounds_cut`: if the input box protrudes outside the
global box, zero the sloped-sides entries of the protruding faces, decrement
`steps`, and return the trimmed slopes; otherwise leave `self` unchanged and
return `none`.  Embedded as a pair (mutated self, returned option). -/
def out_of_bounds_cut (f : APFrustrum D) (stencil_slopes : Bounds D)
    (global_aabb : AABB D) : APFrustrum D × Option (Bounds D) :=
  if ∀ d : Fin D,
      global_aabb.bounds d 0 ≤ (f.input_aabb stencil_slopes).bounds d 0
      ∧ (f.input_aabb stencil_slopes).bounds d 1 ≤ global_aabb.bounds d 1 then
    (f, none)
  else
    ({ f with steps := f.steps - 1 },
      some (fun d i =>
        if (i = 0 ∧ (f.input_aabb stencil_slopes).bounds d 0
              < global_aabb.bounds d 0)
            ∨ (i = 1 ∧ (f.input_aabb stencil_slopes).bounds d 1
              > global_aabb.bounds d 1) then 0
        else f.sloped_sides d i))

end APFrustrum

/-! Helper lemmas shared by several claim proofs. -/

theorem APFrustrum.input_aabb_min {D : ℕ} (f : APFrustrum D)
    (st : Bounds D) (d : Fin D) :
    (f.input_aabb st).bounds d 0 =
      f.output_aabb.bounds d 0 - (f.steps : ℤ) * (st d 0 * f.sloped_sides d 0) := by
  show f.output_aabb.bounds d 0 + (f.steps : ℤ) * (if (0 : Fin 2) = 0 then
      -(st d 0 * f.sloped_sides d 0) else st d 1 * f.sloped_sides d 1) = _
  rw [if_pos rfl]
  ring

theorem APFrustrum.input_aabb_max {D : ℕ} (f : APFrustrum D)
    (st : Bounds D) (d : Fin D) :
    (f.input_aabb st).bounds d 1 =
      f.output_aabb.bounds d 1 + (f.steps : ℤ) * (st d 1 * f.sloped_sides d 1) := by
  show f.output_aabb.bounds d 1 + (f.steps : ℤ) * (if (1 : Fin 2) = 0 then
      -(st d 0 * f.sloped_sides d 0) else st d 1 * f.sloped_sides d 1) = _
  rw [if_neg (by decide)]

theorem Side.inner_ne_outer (s : Side) : s.inner_index ≠ s.outer_index := by
  cases s <;> decide

/-- C1 counterexample: for the frustrum with `recursion_dimension = 0` and
`side = Min` in 2D, the claim predicts the mask `[[1,0],[1,1]]` (outer face
sloped along the recursion dimension, higher dimensions fully sloped), but
`sloped_sides` returns `[[0,1],[0,0]]`, as the source's own unit test
asserts. -/
theorem C1_sloped_sides_counterexample :
    ¬ ((APFrustrum.mk ⟨![![20, 40], ![20, 40]]⟩ 0 Side.Min 10).sloped_sides
        = ![![1, 0], ![1, 1]]) := by
  decide

/-- C1 (amended): `sloped_sides` marks, along `recursion_dimension`, only the
inner face (the face opposite `side`) as sloped; for every dimension less
than `recursion_dimension` both faces are sloped; for every dimension
greater than `recursion_dimension` neither face is sloped. -/
theorem C1_sloped_sides {D : ℕ} (f : APFrustrum D) (d : Fin D) :
    (d.val < f.recursion_dimension →
      f.sloped_sides d 0 = 1 ∧ f.sloped_sides d 1 = 1)
    ∧ (d.val = f.recursion_dimension →
      f.sloped_sides d f.side.inner_index = 1
        ∧ f.sloped_sides d f.side.outer_index = 0)
    ∧ (f.recursion_dimension < d.val →
      f.sloped_sides d 0 = 0 ∧ f.sloped_sides d 1 = 0) := by
  unfold APFrustrum.sloped_sides
  refine ⟨fun h => ?_, fun h => ?_, fun h => ?_⟩
  · constructor <;>
      · rw [if_neg (by omega), if_neg (fun hc => by omega)]
  · constructor
    · rw [if_neg (by omega),
        if_neg (fun hc => Side.inner_ne_outer f.side hc.2)]
    · rw [if_neg (by omega), if_pos ⟨h, rfl⟩]
  · constructor <;> · rw [if_pos h]

/-- C1 witness: the amended characterization evaluated on the source's own
2D unit-test frustrum (`recursion_dimension = 1`, `side = Min`). -/
theorem C1_sloped_sides_witness :
    ((0 : ℕ) < 1
      → (APFrustrum.mk ⟨![![20, 40], ![20, 40]]⟩ 1 Side.Min 10).sloped_sides 0 0 = 1
        ∧ (APFrustrum.mk ⟨![![20, 40], ![20, 40]]⟩ 1 Side.Min 10).sloped_sides 0 1 = 1)
    ∧ ((1 : ℕ) = 1
      → (APFrustrum.mk ⟨![![20, 40], ![20, 40]]⟩ 1 Side.Min 10).sloped_sides 1
          (Side.Min.inner_index) = 1
        ∧ (APFrustrum.mk ⟨![![20, 40], ![20, 40]]⟩ 1 Side.Min 10).sloped_sides 1
          (Side.Min.outer_index) = 0) :=
  ⟨(C1_sloped_sides (APFrustrum.mk ⟨![![20, 40], ![20, 40]]⟩ 1 Side.Min 10) 0).1,
   (C1_sloped_sides (APFrustrum.mk ⟨![![20, 40], ![20, 40]]⟩ 1 Side.Min 10) 1).2.1⟩

/-- C5: the computed input region (`trapezoid_input_region`, and
`APFrustrum::input_aabb` through `frustrum_input_aabb`) equals the output
box with, per dimension, the min bound decreased by
`steps × mask[d,min] × stencil_slopes[d,min]` and the max bound increased by
`steps × mask[d,max] × stencil_slopes[d,max]`. -/
theorem C5_input_region {D : ℕ} (steps : ℕ) (output : AABB D)
    (sloped_sides stencil_slopes : Bounds D) (f : APFrustrum D) (d : Fin D) :
    ((trapezoid_input_region steps output sloped_sides stencil_slopes).bounds d 0
        = output.bounds d 0 - (steps : ℤ) * (sloped_sides d 0 * stencil_slopes d 0))
    ∧ ((trapezoid_input_region steps output sloped_sides stencil_slopes).bounds d 1
        = output.bounds d 1 + (steps : ℤ) * (sloped_sides d 1 * stencil_slopes d 1))
    ∧ ((f.input_aabb stencil_slopes).bounds d 0
        = f.output_aabb.bounds d 0
          - (f.steps : ℤ) * (f.sloped_sides d 0 * stencil_slopes d 0))
    ∧ ((f.input_aabb stencil_slopes).bounds d 1
        = f.output_aabb.bounds d 1
          + (f.steps : ℤ) * (f.sloped_sides d 1 * stencil_slopes d 1)) := by
  refine ⟨?_, ?_, ?_, ?_⟩
  · show output.bounds d 0 + (steps : ℤ) * (if (0 : Fin 2) = 0 then
        -(stencil_slopes d 0 * sloped_sides d 0)
        else stencil_slopes d 1 * sloped_sides d 1) = _
    rw [if_pos rfl]
    ring
  · show output.bounds d 1 + (steps : ℤ) * (if (1 : Fin 2) = 0 then
        -(stencil_slopes d 0 * sloped_sides d 0)
        else stencil_slopes d 1 * sloped_sides d 1) = _
    rw [if_neg (by decide)]
    ring
  · rw [f.input_aabb_min stencil_slopes d]
    ring
  · rw [f.input_aabb_max stencil_slopes d]
    ring

/-- C7 counterexample: the frustrum with output `[20,50] × [0,200]`
(`recursion_dimension = 0`, `side = Min`, `steps = 20`) does not decompose
into the three children the claim lists; its first child is
`[20,39] × [0,200]`, not `[0,19] × [0,200]`. -/
theorem C7_decompose_counterexample :
    (APFrustrum.mk ⟨![![20, 50], ![0, 200]]⟩ 0 Side.Min 20).decompose ≠
      [APFrustrum.mk ⟨![![0, 19], ![0, 200]]⟩ 0 Side.Min 20,
       APFrustrum.mk ⟨![![20, 50], ![0, 19]]⟩ 1 Side.Min 20,
       APFrustrum.mk ⟨![![20, 50], ![181, 200]]⟩ 1 Side.Max 20] := by
  decide

/-- C7 (amended): the frustrum with output `[0,50] × [0,200]`
(`recursion_dimension = 0`, `side = Min`, `steps = 20`) — the box used by the
source's own unit test — decomposes into exactly the three claimed children. -/
theorem C7_decompose :
    (APFrustrum.mk ⟨![![0, 50], ![0, 200]]⟩ 0 Side.Min 20).decompose =
      [APFrustrum.mk ⟨![![0, 19], ![0, 200]]⟩ 0 Side.Min 20,
       APFrustrum.mk ⟨![![20, 50], ![0, 19]]⟩ 1 Side.Min 20,
       APFrustrum.mk ⟨![![20, 50], ![181, 200]]⟩ 1 Side.Max 20] := by
  decide

/-- C8: for the box `[10,20]` the coordinate `9` is one below the min (well
within one box-size, the box size being 11), yet `periodic_coord` maps it to
`max + 1 + 9 = 30`, which lies outside the box — contradicting the
function's own documentation and the round-trip property; a correct wrap
would give `20`. -/
theorem C8_periodic_coord_bug :
    (AABB.mk (D := 1) ![![10, 20]]).check_validity
    ∧ ((AABB.mk (D := 1) ![![10, 20]]).bounds 0 0
        - (AABB.mk (D := 1) ![![10, 20]]).exclusive_bounds 0 ≤ (9 : ℤ)
      ∧ (9 : ℤ) ≤ (AABB.mk (D := 1) ![![10, 20]]).bounds 0 1
          + (AABB.mk (D := 1) ![![10, 20]]).exclusive_bounds 0)
    ∧ (AABB.mk (D := 1) ![![10, 20]]).periodic_coord ![9] = ![30]
    ∧ ¬ (AABB.mk (D := 1) ![![10, 20]]).contains
        ((AABB.mk (D := 1) ![![10, 20]]).periodic_coord ![9]) := by
  decide

/-- C9: when `time_cut` returns `None` (that is, when `cut_steps ≥ steps`),
the frustrum is left completely unchanged. -/
theorem C9_time_cut_none {D : ℕ} (f : APFrustrum D) (cut_steps : ℕ)
    (stencil_slopes : Bounds D) (h : f.steps ≤ cut_steps) :
    f.time_cut cut_steps stencil_slopes = (f, none) := by
  unfold APFrustrum.time_cut
  rw [if_pos h]

theorem APFrustrum.sloped_sides_of_eq {D : ℕ} (f g : APFrustrum D)
    (hr : f.recursion_dimension = g.recursion_dimension)
    (hs : f.side = g.side) : f.sloped_sides = g.sloped_sides := by
  unfold APFrustrum.sloped_sides
  rw [hr, hs]

/-- C2: for `0 < cut_steps < steps`, `time_cut` returns the tail frustrum
(same output box, `steps - cut_steps` steps); the mutated head keeps
`cut_steps` steps and its output box becomes the tail's input box, while the
head's input box is the original frustrum's input box.  For
`cut_steps ≥ steps` it returns `None`. -/
theorem C2_time_cut {D : ℕ} (f : APFrustrum D) (cut_steps : ℕ)
    (st : Bounds D) :
    (0 < cut_steps → cut_steps < f.steps →
      (f.time_cut cut_steps st).2
          = some ⟨f.output_aabb, f.recursion_dimension, f.side,
              f.steps - cut_steps⟩
        ∧ (⟨f.output_aabb, f.recursion_dimension, f.side, f.steps - cut_steps⟩
            : APFrustrum D).output_aabb = f.output_aabb
        ∧ (f.time_cut cut_steps st).1.steps = cut_steps
        ∧ (f.time_cut cut_steps st).1.output_aabb
            = (⟨f.output_aabb, f.recursion_dimension, f.side,
                f.steps - cut_steps⟩ : APFrustrum D).input_aabb st
        ∧ (f.time_cut cut_steps st).1.input_aabb st = f.input_aabb st)
    ∧ (f.steps ≤ cut_steps → (f.time_cut cut_steps st).2 = none) := by
  constructor
  · intro h0 h1
    have hne : ¬ f.steps ≤ cut_steps := by omega
    have hcut : f.time_cut cut_steps st =
        ({ f with
            output_aabb := (⟨f.output_aabb, f.recursion_dimension, f.side,
              f.steps - cut_steps⟩ : APFrustrum D).input_aabb st,
            steps := cut_steps },
          some ⟨f.output_aabb, f.recursion_dimension, f.side,
            f.steps - cut_steps⟩) := by
      unfold APFrustrum.time_cut
      rw [if_neg hne]
    rw [hcut]
    refine ⟨rfl, rfl, rfl, rfl, ?_⟩
    have hsl : ({ f with
        output_aabb := (⟨f.output_aabb, f.recursion_dimension, f.side,
          f.steps - cut_steps⟩ : APFrustrum D).input_aabb st,
        steps := cut_steps } : APFrustrum D).sloped_sides = f.sloped_sides :=
      APFrustrum.sloped_sides_of_eq _ _ rfl rfl
    have htl : (⟨f.output_aabb, f.recursion_dimension, f.side,
        f.steps - cut_steps⟩ : APFrustrum D).sloped_sides = f.sloped_sides :=
      APFrustrum.sloped_sides_of_eq _ _ rfl rfl
    rw [AABB.ext_iff_bounds]
    funext d i
    match i with
    | 0 =>
      rw [APFrustrum.input_aabb_min, APFrustrum.input_aabb_min, hsl,
        APFrustrum.input_aabb_min, htl]
      show f.output_aabb.bounds d 0
          - ((f.steps - cut_steps : ℕ) : ℤ) * (st d 0 * f.sloped_sides d 0)
          - (cut_steps : ℤ) * (st d 0 * f.sloped_sides d 0) = _
      rw [Nat.cast_sub h1.le]
      ring
    | 1 =>
      rw [APFrustrum.input_aabb_max, APFrustrum.input_aabb_max, hsl,
        APFrustrum.input_aabb_max, htl]
      show f.output_aabb.bounds d 1
          + ((f.steps - cut_steps : ℕ) : ℤ) * (st d 1 * f.sloped_sides d 1)
          + (cut_steps : ℤ) * (st d 1 * f.sloped_sides d 1) = _
      rw [Nat.cast_sub h1.le]
      ring
  · intro h
    unfold APFrustrum.time_cut
    rw [if_pos h]

/-- C2 witness: a 10-step frustrum cut at 3, with unit stencil slopes. -/
theorem C2_time_cut_witness :
    (0 : ℕ) < 3 ∧ (3 : ℕ) < 10
    ∧ ((APFrustrum.mk ⟨![![20, 40], ![20, 40]]⟩ 1 Side.Max 10).time_cut 3
          ![![1, 1], ![1, 1]]).2
        = some (APFrustrum.mk ⟨![![20, 40], ![20, 40]]⟩ 1 Side.Max 7)
    ∧ ((APFrustrum.mk ⟨![![20, 40], ![20, 40]]⟩ 1 Side.Max 10).time_cut 3
          ![![1, 1], ![1, 1]]).1.steps = 3
    ∧ ((APFrustrum.mk ⟨![![20, 40], ![20, 40]]⟩ 1 Side.Max 10).time_cut 3
          ![![1, 1], ![1, 1]]).1.input_aabb ![![1, 1], ![1, 1]]
        = (APFrustrum.mk ⟨![![20, 40], ![20, 40]]⟩ 1 Side.Max 10).input_aabb
          ![![1, 1], ![1, 1]] :=
  have h := (C2_time_cut (APFrustrum.mk ⟨![![20, 40], ![20, 40]]⟩ 1 Side.Max 10)
    3 ![![1, 1], ![1, 1]]).1 (by decide) (by decide)
  ⟨by decide, by decide, h.1, h.2.2.1, h.2.2.2.2⟩

/-- C6: `out_of_bounds_cut` returns `None`, leaving the frustrum unchanged,
exactly when the input box is contained in the global box; otherwise it
decrements `steps` by exactly one and returns the sloped-sides mask with
precisely the protruding faces' entries set to 0. -/
theorem C6_out_of_bounds_cut {D : ℕ} (f : APFrustrum D) (st : Bounds D)
    (g : AABB D) (hsteps : 1 ≤ f.steps) :
    (f.out_of_bounds_cut st g = (f, none)
      ↔ g.contains_aabb (f.input_aabb st))
    ∧ (¬ g.contains_aabb (f.input_aabb st) →
        f.out_of_bounds_cut st g =
          ({ f with steps := f.steps - 1 },
            some (fun d i =>
              if (i = 0 ∧ (f.input_aabb st).bounds d 0 < g.bounds d 0)
                  ∨ (i = 1 ∧ (f.input_aabb st).bounds d 1 > g.bounds d 1)
                then 0
              else f.sloped_sides d i))
        ∧ (f.out_of_bounds_cut st g).1.steps + 1 = f.steps) := by
  have hiff : (∀ d : Fin D,
      g.bounds d 0 ≤ (f.input_aabb st).bounds d 0
      ∧ (f.input_aabb st).bounds d 1 ≤ g.bounds d 1)
      ↔ g.contains_aabb (f.input_aabb st) := Iff.rfl
  constructor
  · constructor
    · intro heq
      by_contra hnc
      unfold APFrustrum.out_of_bounds_cut at heq
      rw [if_neg (fun hall => hnc (hiff.mp hall))] at heq
      exact Option.noConfusion (congrArg Prod.snd heq)
    · intro hc
      unfold APFrustrum.out_of_bounds_cut
      rw [if_pos (hiff.mpr hc)]
  · intro hnc
    have hres : f.out_of_bounds_cut st g =
        ({ f with steps := f.steps - 1 },
          some (fun d i =>
            if (i = 0 ∧ (f.input_aabb st).bounds d 0 < g.bounds d 0)
                ∨ (i = 1 ∧ (f.input_aabb st).bounds d 1 > g.bounds d 1)
              then 0
            else f.sloped_sides d i)) := by
      unfold APFrustrum.out_of_bounds_cut
      rw [if_neg (fun hall => hnc (hiff.mp hall))]
    refine ⟨hres, ?_⟩
    rw [hres]
    show f.steps - 1 + 1 = f.steps
    omega

/-- C6 witness: the source's own out-of-bounds unit test — the frustrum
`[300,387] × [0,12]` with 13 steps against the global box `[0,399]²`. -/
theorem C6_out_of_bounds_cut_witness :
    (1 : ℕ) ≤ 13
    ∧ ¬ (AABB.mk ![![0, 399], ![0, 399]]).contains_aabb
        ((APFrustrum.mk ⟨![![300, 387], ![0, 12]]⟩ 1 Side.Min 13).input_aabb
          ![![1, 1], ![1, 1]])
    ∧ ((APFrustrum.mk ⟨![![300, 387], ![0, 12]]⟩ 1 Side.Min 13).out_of_bounds_cut
          ![![1, 1], ![1, 1]] (AABB.mk ![![0, 399], ![0, 399]])).2
        = some ![![1, 0], ![0, 1]]
    ∧ ((APFrustrum.mk ⟨![![300, 387], ![0, 12]]⟩ 1 Side.Min 13).out_of_bounds_cut
          ![![1, 1], ![1, 1]] (AABB.mk ![![0, 399], ![0, 399]])).1.steps + 1
        = 13 :=
  have h := (C6_out_of_bounds_cut
    (APFrustrum.mk ⟨![![300, 387], ![0, 12]]⟩ 1 Side.Min 13)
    ![![1, 1], ![1, 1]] (AABB.mk ![![0, 399], ![0, 399]]) (by decide)).2
    (by decide)
  ⟨by decide, by decide, by rw [h.1]; decide, h.2⟩

/-- C9 witness: the source's own unit test, a 10-step frustrum cut at 10. -/
theorem C9_time_cut_none_witness :
    (10 : ℕ) ≤ 10
    ∧ (APFrustrum.mk ⟨![![20, 40], ![20, 40]]⟩ 1 Side.Max 10).time_cut 10
        ![![1, 1], ![1, 1]] =
        (APFrustrum.mk ⟨![![20, 40], ![20, 40]]⟩ 1 Side.Max 10, none) :=
  ⟨by decide,
   C9_time_cut_none (APFrustrum.mk ⟨![![20, 40], ![20, 40]]⟩ 1 Side.Max 10) 10
     ![![1, 1], ![1, 1]] (by decide)⟩

/-! Characterization of `AABB::decomposition` used by claim C3. -/

theorem AABB.remaining_bounds_row {D : ℕ} (a center : AABB D) (k : ℕ)
    (d : Fin D) (i : Fin 2) :
    (a.remaining_bounds center k).bounds d i =
      if d.val < k then center.bounds d i else a.bounds d i := by
  induction k with
  | zero => simp [AABB.remaining_bounds]
  | succ k ih =>
    show (if d.val = k then center.bounds d i
        else (a.remaining_bounds center k).bounds d i) = _
    rw [ih]
    split_ifs <;> first | rfl | omega

theorem AABB.decomposition_zero_min {D : ℕ} (a center : AABB D) (d : Fin D)
    (d' : Fin D) :
    (a.decomposition center d 0).bounds d' 0 =
      if d'.val < d.val then center.bounds d' 0 else a.bounds d' 0 := by
  show setB (a.remaining_bounds center d.val).bounds d.val 1
      (center.bounds d 0 - 1) d' 0 = _
  unfold setB
  rw [if_neg (fun hc => absurd hc.2 (by decide)), AABB.remaining_bounds_row]

theorem AABB.decomposition_zero_max {D : ℕ} (a center : AABB D) (d : Fin D)
    (d' : Fin D) :
    (a.decomposition center d 0).bounds d' 1 =
      if d'.val = d.val then center.bounds d 0 - 1
      else if d'.val < d.val then center.bounds d' 1 else a.bounds d' 1 := by
  show setB (a.remaining_bounds center d.val).bounds d.val 1
      (center.bounds d 0 - 1) d' 1 = _
  unfold setB
  by_cases hd : d'.val = d.val
  · rw [if_pos ⟨hd, rfl⟩, if_pos hd]
  · rw [if_neg (fun hc => hd hc.1), if_neg hd, AABB.remaining_bounds_row]

theorem AABB.decomposition_one_min {D : ℕ} (a center : AABB D) (d : Fin D)
    (d' : Fin D) :
    (a.decomposition center d 1).bounds d' 0 =
      if d'.val = d.val then center.bounds d 1 + 1
      else if d'.val < d.val then center.bounds d' 0 else a.bounds d' 0 := by
  show setB (a.remaining_bounds center d.val).bounds d.val 0
      (center.bounds d 1 + 1) d' 0 = _
  unfold setB
  by_cases hd : d'.val = d.val
  · rw [if_pos ⟨hd, rfl⟩, if_pos hd]
  · rw [if_neg (fun hc => hd hc.1), if_neg hd, AABB.remaining_bounds_row]

theorem AABB.decomposition_one_max {D : ℕ} (a center : AABB D) (d : Fin D)
    (d' : Fin D) :
    (a.decomposition center d 1).bounds d' 1 =
      if d'.val < d.val then center.bounds d' 1 else a.bounds d' 1 := by
  show setB (a.remaining_bounds center d.val).bounds d.val 0
      (center.bounds d 1 + 1) d' 1 = _
  unfold setB
  rw [if_neg (fun hc => absurd hc.2 (by decide)), AABB.remaining_bounds_row]

/-- Membership in piece 0 of dimension `d`: center rows below `d`, the box's
own rows above `d`, and at row `d` the band between the box min and one less
than the center min. -/
theorem AABB.mem_decomposition_zero {D : ℕ} (a center : AABB D) (d : Fin D)
    (c : Coord D) :
    (a.decomposition center d 0).contains c ↔
      (∀ d' : Fin D, d'.val < d.val →
        center.bounds d' 0 ≤ c d' ∧ c d' ≤ center.bounds d' 1)
      ∧ (∀ d' : Fin D, d.val < d'.val →
        a.bounds d' 0 ≤ c d' ∧ c d' ≤ a.bounds d' 1)
      ∧ a.bounds d 0 ≤ c d ∧ c d ≤ center.bounds d 0 - 1 := by
  unfold AABB.contains
  constructor
  · intro h
    refine ⟨fun d' hlt => ?_, fun d' hgt => ?_, ?_, ?_⟩
    · have h1 := (h d').1
      have h2 := (h d').2
      rw [AABB.decomposition_zero_min, if_pos hlt] at h1
      rw [AABB.decomposition_zero_max, if_neg (by omega), if_pos hlt] at h2
      exact ⟨h1, h2⟩
    · have h1 := (h d').1
      have h2 := (h d').2
      rw [AABB.decomposition_zero_min, if_neg (by omega)] at h1
      rw [AABB.decomposition_zero_max, if_neg (by omega),
        if_neg (by omega)] at h2
      exact ⟨h1, h2⟩
    · have h1 := (h d).1
      rw [AABB.decomposition_zero_min, if_neg (by omega)] at h1
      exact h1
    · have h2 := (h d).2
      rw [AABB.decomposition_zero_max, if_pos rfl] at h2
      exact h2
  · rintro ⟨hc, hb, hmin, hmax⟩ d'
    rw [AABB.decomposition_zero_min, AABB.decomposition_zero_max]
    rcases Nat.lt_trichotomy d'.val d.val with hlt | heq | hgt
    · rw [if_pos hlt, if_neg (by omega), if_pos hlt]
      exact hc d' hlt
    · have hdd : d' = d := Fin.ext heq
      subst hdd
      rw [if_neg (by omega), if_pos rfl]
      exact ⟨hmin, hmax⟩
    · rw [if_neg (by omega), if_neg (by omega), if_neg (by omega)]
      exact hb d' hgt

/-- Membership in piece 1 of dimension `d`: center rows below `d`, the box's
own rows above `d`, and at row `d` the band between one more than the center
max and the box max. -/
theorem AABB.mem_decomposition_one {D : ℕ} (a center : AABB D) (d : Fin D)
    (c : Coord D) :
    (a.decomposition center d 1).contains c ↔
      (∀ d' : Fin D, d'.val < d.val →
        center.bounds d' 0 ≤ c d' ∧ c d' ≤ center.bounds d' 1)
      ∧ (∀ d' : Fin D, d.val < d'.val →
        a.bounds d' 0 ≤ c d' ∧ c d' ≤ a.bounds d' 1)
      ∧ center.bounds d 1 + 1 ≤ c d ∧ c d ≤ a.bounds d 1 := by
  unfold AABB.contains
  constructor
  · intro h
    refine ⟨fun d' hlt => ?_, fun d' hgt => ?_, ?_, ?_⟩
    · have h1 := (h d').1
      have h2 := (h d').2
      rw [AABB.decomposition_one_min, if_neg (by omega), if_pos hlt] at h1
      rw [AABB.decomposition_one_max, if_pos hlt] at h2
      exact ⟨h1, h2⟩
    · have h1 := (h d').1
      have h2 := (h d').2
      rw [AABB.decomposition_one_min, if_neg (by omega),
        if_neg (by omega)] at h1
      rw [AABB.decomposition_one_max, if_neg (by omega)] at h2
      exact ⟨h1, h2⟩
    · have h1 := (h d).1
      rw [AABB.decomposition_one_min, if_pos rfl] at h1
      exact h1
    · have h2 := (h d).2
      rw [AABB.decomposition_one_max, if_neg (by omega)] at h2
      exact h2
  · rintro ⟨hc, hb, hmin, hmax⟩ d'
    rw [AABB.decomposition_one_min, AABB.decomposition_one_max]
    rcases Nat.lt_trichotomy d'.val d.val with hlt | heq | hgt
    · rw [if_neg (by omega), if_pos hlt, if_pos hlt]
      exact hc d' hlt
    · have hdd : d' = d := Fin.ext heq
      subst hdd
      rw [if_pos rfl, if_neg (by omega)]
      exact ⟨hmin, hmax⟩
    · rw [if_neg (by omega), if_neg (by omega), if_neg (by omega)]
      exact hb d' hgt

/-- Every piece index of `Fin 2` is 0 or 1. -/
theorem fin_two_cases (i : Fin 2) : i = 0 ∨ i = 1 := by omega

/-- If a coordinate escapes a box, there is a least dimension in which it
escapes. -/
theorem exists_least_escape {D : ℕ} (C : AABB D) (c : Coord D)
    (h : ¬ C.contains c) :
    ∃ d₀ : Fin D, ¬ (C.bounds d₀ 0 ≤ c d₀ ∧ c d₀ ≤ C.bounds d₀ 1)
      ∧ ∀ d' : Fin D, d'.val < d₀.val →
          C.bounds d' 0 ≤ c d' ∧ c d' ≤ C.bounds d' 1 := by
  obtain ⟨d₁, hd₁⟩ := not_forall.mp h
  set S : Finset (Fin D) := Finset.univ.filter
    (fun d : Fin D => ¬ (C.bounds d 0 ≤ c d ∧ c d ≤ C.bounds d 1)) with hSdef
  have hne : S.Nonempty := ⟨d₁, Finset.mem_filter.mpr ⟨Finset.mem_univ _, hd₁⟩⟩
  refine ⟨S.min' hne, (Finset.mem_filter.mp (S.min'_mem hne)).2, ?_⟩
  intro d' hlt
  by_contra hq
  have hle := S.min'_le d' (Finset.mem_filter.mpr ⟨Finset.mem_univ _, hq⟩)
  rw [Fin.le_def] at hle
  omega

/-- C3: for every valid box `B` and valid inner box `C ⊆ B`, the `2 D`
pieces of `B.decomposition C` together with `C` cover exactly the coordinate
set of `B`, and the `2 D + 1` coordinate sets are pairwise disjoint. -/
theorem C3_decomposition_partition {D : ℕ} (B C : AABB D)
    (hB : B.check_validity) (hC : C.check_validity)
    (hBC : B.contains_aabb C) :
    (∀ c : Coord D, B.contains c ↔
      (C.contains c
        ∨ ∃ (d : Fin D) (i : Fin 2), (B.decomposition C d i).contains c))
    ∧ (∀ (c : Coord D) (d : Fin D) (i : Fin 2),
        (B.decomposition C d i).contains c → ¬ C.contains c)
    ∧ (∀ (c : Coord D) (d d' : Fin D) (i i' : Fin 2), ¬ (d = d' ∧ i = i') →
        (B.decomposition C d i).contains c →
          ¬ (B.decomposition C d' i').contains c) := by
  refine ⟨fun c => ⟨fun hc => ?_, fun hcase => ?_⟩,
    fun c d i hp hcc => ?_, fun c d d' i i' hne h1 h2 => ?_⟩
  · by_cases hall : C.contains c
    · exact Or.inl hall
    · right
      obtain ⟨d₀, hd₀, hmin⟩ := exists_least_escape C c hall
      rcases (by omega : c d₀ < C.bounds d₀ 0 ∨ C.bounds d₀ 1 < c d₀) with
        hlt | hgt
      · refine ⟨d₀, 0,
          (AABB.mem_decomposition_zero B C d₀ c).mpr
            ⟨hmin, fun d' _ => hc d', (hc d₀).1, by omega⟩⟩
      · refine ⟨d₀, 1,
          (AABB.mem_decomposition_one B C d₀ c).mpr
            ⟨hmin, fun d' _ => hc d', by omega, (hc d₀).2⟩⟩
  · rcases hcase with hCc | ⟨d, i, hp⟩
    · intro d'
      have h1 := hCc d'
      have h2 := hBC d'
      omega
    · rcases fin_two_cases i with hi | hi <;> subst hi
      · obtain ⟨hcs, hbs, hmin, hmax⟩ :=
          (AABB.mem_decomposition_zero B C d c).mp hp
        intro d'
        rcases Nat.lt_trichotomy d'.val d.val with hlt | heq | hgt
        · have h1 := hcs d' hlt
          have h2 := hBC d'
          omega
        · have hdd : d' = d := Fin.ext heq
          subst hdd
          have h1 := hBC d'
          have h2 := hC d'
          omega
        · exact hbs d' hgt
      · obtain ⟨hcs, hbs, hmin, hmax⟩ :=
          (AABB.mem_decomposition_one B C d c).mp hp
        intro d'
        rcases Nat.lt_trichotomy d'.val d.val with hlt | heq | hgt
        · have h1 := hcs d' hlt
          have h2 := hBC d'
          omega
        · have hdd : d' = d := Fin.ext heq
          subst hdd
          have h1 := hBC d'
          have h2 := hC d'
          omega
        · exact hbs d' hgt
  · rcases fin_two_cases i with hi | hi <;> subst hi
    · have hband := ((AABB.mem_decomposition_zero B C d c).mp hp).2.2
      have h1 := hcc d
      omega
    · have hband := ((AABB.mem_decomposition_one B C d c).mp hp).2.2
      have h1 := hcc d
      omega
  · rcases Nat.lt_trichotomy d.val d'.val with hlt | heq | hgt
    · have hcrow : C.bounds d 0 ≤ c d ∧ c d ≤ C.bounds d 1 := by
        rcases fin_two_cases i' with hi' | hi' <;> subst hi'
        · exact ((AABB.mem_decomposition_zero B C d' c).mp h2).1 d hlt
        · exact ((AABB.mem_decomposition_one B C d' c).mp h2).1 d hlt
      rcases fin_two_cases i with hi | hi <;> subst hi
      · have hband := ((AABB.mem_decomposition_zero B C d c).mp h1).2.2
        omega
      · have hband := ((AABB.mem_decomposition_one B C d c).mp h1).2.2
        omega
    · have hdd : d = d' := Fin.ext heq
      subst hdd
      have hii : ¬ i = i' := fun h => hne ⟨rfl, h⟩
      rcases fin_two_cases i with hi | hi <;>
        rcases fin_two_cases i' with hi' | hi' <;> subst hi <;> subst hi'
      · exact hii rfl
      · have hb1 := ((AABB.mem_decomposition_zero B C d c).mp h1).2.2
        have hb2 := ((AABB.mem_decomposition_one B C d c).mp h2).2.2
        have h3 := hC d
        omega
      · have hb1 := ((AABB.mem_decomposition_one B C d c).mp h1).2.2
        have hb2 := ((AABB.mem_decomposition_zero B C d c).mp h2).2.2
        have h3 := hC d
        omega
      · exact hii rfl
    · have hcrow : C.bounds d' 0 ≤ c d' ∧ c d' ≤ C.bounds d' 1 := by
        rcases fin_two_cases i with hi | hi <;> subst hi
        · exact ((AABB.mem_decomposition_zero B C d c).mp h1).1 d' hgt
        · exact ((AABB.mem_decomposition_one B C d c).mp h1).1 d' hgt
      rcases fin_two_cases i' with hi' | hi' <;> subst hi'
      · have hband := ((AABB.mem_decomposition_zero B C d' c).mp h2).2.2
        omega
      · have hband := ((AABB.mem_decomposition_one B C d' c).mp h2).2.2
        omega

/-- C3 witness: the partition statement instantiated on the source's own
unit test, `B = [0,9]²`, `C = [4,6]²`, evaluated at the coordinate `(2,5)`
(which lies in piece `(0,0)`) and at `(5,5)` (which lies in `C`). -/
theorem C3_decomposition_partition_witness :
    ((AABB.mk ![![0, 9], ![0, 9]]).contains ![2, 5] ↔
      ((AABB.mk ![![4, 6], ![4, 6]]).contains ![2, 5]
        ∨ ∃ (d : Fin 2) (i : Fin 2),
          ((AABB.mk ![![0, 9], ![0, 9]]).decomposition
            (AABB.mk ![![4, 6], ![4, 6]]) d i).contains ![2, 5]))
    ∧ ((AABB.mk ![![0, 9], ![0, 9]]).contains ![5, 5] ↔
      ((AABB.mk ![![4, 6], ![4, 6]]).contains ![5, 5]
        ∨ ∃ (d : Fin 2) (i : Fin 2),
          ((AABB.mk ![![0, 9], ![0, 9]]).decomposition
            (AABB.mk ![![4, 6], ![4, 6]]) d i).contains ![5, 5])) :=
  have h := C3_decomposition_partition (AABB.mk ![![0, 9], ![0, 9]])
    (AABB.mk ![![4, 6], ![4, 6]]) (by decide) (by decide) (by decide)
  ⟨h.1 ![2, 5], h.1 ![5, 5]⟩

/-! Characterization of `APFrustrum::decompose` used by claim C10. -/

theorem APFrustrum.decompose_children_length {D : ℕ} (f : APFrustrum D)
    (n : ℕ) : (f.decompose_children n).length = 2 * n := by
  induction n with
  | zero => rfl
  | succ n ih =>
    show (f.decompose_children n ++ _).length = _
    rw [List.length_append, ih]
    simp
    omega

theorem APFrustrum.mem_decompose_children {D : ℕ} (f : APFrustrum D)
    (n : ℕ) (g : APFrustrum D) :
    g ∈ f.decompose_children n ↔
      ∃ j, j < n ∧ (g = (f.decompose_pair j).1 ∨ g = (f.decompose_pair j).2) := by
  induction n with
  | zero => simp [APFrustrum.decompose_children]
  | succ n ih =>
    show g ∈ f.decompose_children n ++ _ ↔ _
    rw [List.mem_append, ih]
    constructor
    · rintro (⟨j, hj, hh⟩ | h)
      · exact ⟨j, by omega, hh⟩
      · rcases List.mem_cons.mp h with h1 | h1
        · exact ⟨n, by omega, Or.inl h1⟩
        · rcases List.mem_singleton.mp h1 with h2
          exact ⟨n, by omega, Or.inr h2⟩
    · rintro ⟨j, hj, hh⟩
      by_cases hjn : j < n
      · exact Or.inl ⟨j, hjn, hh⟩
      · have hje : j = n := by omega
        subst hje
        rcases hh with h1 | h1
        · exact Or.inr (by rw [h1]; exact List.mem_cons_self _ _)
        · exact Or.inr (by rw [h1]; simp)

theorem APFrustrum.decompose_remainder_row {D : ℕ} (f : APFrustrum D)
    (hrec : f.recursion_dimension < D) :
    ∀ j : ℕ, f.recursion_dimension + 1 + j ≤ D →
    ∀ (d : Fin D) (i : Fin 2),
    f.decompose_remainder j d i =
      if d.val = f.recursion_dimension ∧ i = f.side.outer_index then
        f.output_aabb.bounds d i + f.side.outer_coef * (f.steps : ℤ)
      else if f.recursion_dimension + 1 ≤ d.val
          ∧ d.val < f.recursion_dimension + 1 + j then
        (if i = 0 then f.output_aabb.bounds d 0 + (f.steps : ℤ)
         else f.output_aabb.bounds d 1 - (f.steps : ℤ))
      else f.output_aabb.bounds d i := by
  intro j
  induction j with
  | zero =>
    intro hj d i
    show setB f.output_aabb.bounds f.recursion_dimension f.side.outer_index
        (getB f.output_aabb.bounds f.recursion_dimension f.side.outer_index
          + f.side.outer_coef * (f.steps : ℤ)) d i = _
    unfold setB
    by_cases hc : d.val = f.recursion_dimension ∧ i = f.side.outer_index
    · rw [if_pos hc, if_pos hc]
      unfold getB
      rw [dif_pos hrec]
      have hd : (⟨f.recursion_dimension, hrec⟩ : Fin D) = d :=
        Fin.ext hc.1.symm
      rw [hd, hc.2]
    · rw [if_neg hc, if_neg hc, if_neg (by omega)]
  | succ j ih =>
    intro hj d i
    have hj' : f.recursion_dimension + 1 + j ≤ D := by omega
    have hjD : f.recursion_dimension + 1 + j < D := by omega
    show setB (setB (f.decompose_remainder j)
        (f.recursion_dimension + 1 + j) 0
        (getB (f.decompose_remainder j) (f.recursion_dimension + 1 + j) 0
          + (f.steps : ℤ)))
        (f.recursion_dimension + 1 + j) 1
        (getB (f.decompose_remainder j) (f.recursion_dimension + 1 + j) 1
          - (f.steps : ℤ)) d i = _
    by_cases hd : d.val = f.recursion_dimension + 1 + j
    · have hdfin : (⟨f.recursion_dimension + 1 + j, hjD⟩ : Fin D) = d :=
        Fin.ext hd.symm
      rcases fin_two_cases i with hi | hi <;> subst hi
      · show (if d.val = f.recursion_dimension + 1 + j ∧ (0 : Fin 2) = 1
            then _ else setB (f.decompose_remainder j)
              (f.recursion_dimension + 1 + j) 0
              (getB (f.decompose_remainder j)
                (f.recursion_dimension + 1 + j) 0 + (f.steps : ℤ)) d 0) = _
        rw [if_neg (fun hcc => absurd hcc.2 (by decide))]
        show (if d.val = f.recursion_dimension + 1 + j ∧ (0 : Fin 2) = 0
            then getB (f.decompose_remainder j)
              (f.recursion_dimension + 1 + j) 0 + (f.steps : ℤ)
            else f.decompose_remainder j d 0) = _
        rw [if_pos ⟨hd, rfl⟩]
        unfold getB
        rw [dif_pos hjD, ih hj', hdfin]
        rw [if_neg (fun hcc => absurd hcc.1 (by omega)), if_neg (by omega)]
        rw [if_neg (fun hcc => absurd hcc.1 (by omega)), if_pos (by omega),
          if_pos rfl]
      · show (if d.val = f.recursion_dimension + 1 + j ∧ (1 : Fin 2) = 1
            then getB (f.decompose_remainder j)
              (f.recursion_dimension + 1 + j) 1 - (f.steps : ℤ)
            else _) = _
        rw [if_pos ⟨hd, rfl⟩]
        unfold getB
        rw [dif_pos hjD, ih hj', hdfin]
        rw [if_neg (fun hcc => absurd hcc.1 (by omega)), if_neg (by omega)]
        rw [if_neg (fun hcc => absurd hcc.1 (by omega)), if_pos (by omega),
          if_neg (by decide : ¬ ((1 : Fin 2) = 0))]
    · unfold setB
      rw [if_neg (fun hcc => hd hcc.1), if_neg (fun hcc => hd hcc.1), ih hj']
      by_cases hA : d.val = f.recursion_dimension ∧ i = f.side.outer_index
      · rw [if_pos hA, if_pos hA]
      · rw [if_neg hA, if_neg hA]
        by_cases hm : f.recursion_dimension + 1 ≤ d.val
            ∧ d.val < f.recursion_dimension + 1 + j
        · rw [if_pos hm, if_pos (show f.recursion_dimension + 1 ≤ d.val
            ∧ d.val < f.recursion_dimension + 1 + (j + 1) from by omega)]
        · rw [if_neg hm, if_neg (show ¬ (f.recursion_dimension + 1 ≤ d.val
            ∧ d.val < f.recursion_dimension + 1 + (j + 1)) from by omega)]

theorem APFrustrum.decompose_remainder_col0 {D : ℕ} (f : APFrustrum D)
    (hrec : f.recursion_dimension < D) (j : ℕ)
    (hj : f.recursion_dimension + 1 + j ≤ D) (d : Fin D) :
    f.decompose_remainder j d 0 =
      if (d.val = f.recursion_dimension ∧ f.side = Side.Min)
          ∨ (f.recursion_dimension + 1 ≤ d.val
            ∧ d.val < f.recursion_dimension + 1 + j) then
        f.output_aabb.bounds d 0 + (f.steps : ℤ)
      else f.output_aabb.bounds d 0 := by
  rw [f.decompose_remainder_row hrec j hj d 0]
  cases f.side with
  | Min =>
    by_cases hdr : d.val = f.recursion_dimension
    · rw [if_pos ⟨hdr, by decide⟩, if_pos (Or.inl ⟨hdr, rfl⟩)]
      simp only [Side.outer_coef]
      ring
    · rw [if_neg (fun hcc => hdr hcc.1)]
      by_cases hm : f.recursion_dimension + 1 ≤ d.val
          ∧ d.val < f.recursion_dimension + 1 + j
      · rw [if_pos hm, if_pos (show (0 : Fin 2) = 0 from rfl),
          if_pos (Or.inr hm)]
      · rw [if_neg hm,
          if_neg (fun hcc => hcc.elim (fun h1 => hdr h1.1) (fun h2 => hm h2))]
  | Max =>
    rw [if_neg (fun hcc => absurd hcc.2 (by decide))]
    by_cases hm : f.recursion_dimension + 1 ≤ d.val
        ∧ d.val < f.recursion_dimension + 1 + j
    · rw [if_pos hm, if_pos (show (0 : Fin 2) = 0 from rfl),
        if_pos (Or.inr hm)]
    · rw [if_neg hm,
        if_neg (fun hcc => hcc.elim
          (fun h1 => absurd h1.2 (by decide)) (fun h2 => hm h2))]

theorem APFrustrum.decompose_remainder_col1 {D : ℕ} (f : APFrustrum D)
    (hrec : f.recursion_dimension < D) (j : ℕ)
    (hj : f.recursion_dimension + 1 + j ≤ D) (d : Fin D) :
    f.decompose_remainder j d 1 =
      if (d.val = f.recursion_dimension ∧ f.side = Side.Max)
          ∨ (f.recursion_dimension + 1 ≤ d.val
            ∧ d.val < f.recursion_dimension + 1 + j) then
        f.output_aabb.bounds d 1 - (f.steps : ℤ)
      else f.output_aabb.bounds d 1 := by
  rw [f.decompose_remainder_row hrec j hj d 1]
  cases f.side with
  | Min =>
    rw [if_neg (fun hcc => absurd hcc.2 (by decide))]
    by_cases hm : f.recursion_dimension + 1 ≤ d.val
        ∧ d.val < f.recursion_dimension + 1 + j
    · rw [if_pos hm, if_neg (show ¬ ((1 : Fin 2) = 0) from by decide),
        if_pos (Or.inr hm)]
    · rw [if_neg hm,
        if_neg (fun hcc => hcc.elim
          (fun h1 => absurd h1.2 (by decide)) (fun h2 => hm h2))]
  | Max =>
    by_cases hdr : d.val = f.recursion_dimension
    · rw [if_pos ⟨hdr, by decide⟩, if_pos (Or.inl ⟨hdr, rfl⟩)]
      simp only [Side.outer_coef]
      ring
    · rw [if_neg (fun hcc => hdr hcc.1)]
      by_cases hm : f.recursion_dimension + 1 ≤ d.val
          ∧ d.val < f.recursion_dimension + 1 + j
      · rw [if_pos hm, if_neg (show ¬ ((1 : Fin 2) = 0) from by decide),
          if_pos (Or.inr hm)]
      · rw [if_neg hm,
          if_neg (fun hcc => hcc.elim (fun h1 => hdr h1.1) (fun h2 => hm h2))]

theorem APFrustrum.rem_col0_cases {D : ℕ} (f : APFrustrum D)
    (hrec : f.recursion_dimension < D) (j : ℕ)
    (hj : f.recursion_dimension + 1 + j ≤ D) (d : Fin D) :
    f.decompose_remainder j d 0 = f.output_aabb.bounds d 0
    ∨ f.decompose_remainder j d 0 =
        f.output_aabb.bounds d 0 + (f.steps : ℤ) := by
  rw [f.decompose_remainder_col0 hrec j hj d]
  split_ifs
  · exact Or.inr rfl
  · exact Or.inl rfl

theorem APFrustrum.rem_col1_cases {D : ℕ} (f : APFrustrum D)
    (hrec : f.recursion_dimension < D) (j : ℕ)
    (hj : f.recursion_dimension + 1 + j ≤ D) (d : Fin D) :
    f.decompose_remainder j d 1 = f.output_aabb.bounds d 1
    ∨ f.decompose_remainder j d 1 =
        f.output_aabb.bounds d 1 - (f.steps : ℤ) := by
  rw [f.decompose_remainder_col1 hrec j hj d]
  split_ifs
  · exact Or.inr rfl
  · exact Or.inl rfl

theorem APFrustrum.rem_untouched {D : ℕ} (f : APFrustrum D)
    (hrec : f.recursion_dimension < D) (j : ℕ)
    (hj : f.recursion_dimension + 1 + j ≤ D) (d : Fin D) (i : Fin 2)
    (hd1 : ¬ d.val = f.recursion_dimension)
    (hd2 : ¬ (f.recursion_dimension + 1 ≤ d.val
      ∧ d.val < f.recursion_dimension + 1 + j)) :
    f.decompose_remainder j d i = f.output_aabb.bounds d i := by
  rw [f.decompose_remainder_row hrec j hj d i]
  rw [if_neg (fun hcc => hd1 hcc.1), if_neg hd2]

theorem APFrustrum.decompose_first_col0 {D : ℕ} (f : APFrustrum D)
    (hrec : f.recursion_dimension < D) (d : Fin D) :
    f.decompose_first.output_aabb.bounds d 0 =
      if d.val = f.recursion_dimension ∧ f.side = Side.Max then
        f.output_aabb.bounds d 1 - ((f.steps : ℤ) - 1)
      else f.output_aabb.bounds d 0 := by
  show setB f.output_aabb.bounds f.recursion_dimension f.side.inner_index
      (getB f.output_aabb.bounds f.recursion_dimension f.side.outer_index
        + f.side.outer_coef * ((f.steps : ℤ) - 1)) d 0 = _
  unfold setB getB
  rw [dif_pos hrec]
  cases f.side with
  | Min =>
    rw [if_neg (fun hcc => absurd hcc.2 (by decide)),
      if_neg (fun hcc => absurd hcc.2 (by decide))]
  | Max =>
    by_cases hdr : d.val = f.recursion_dimension
    · have hdfin : (⟨f.recursion_dimension, hrec⟩ : Fin D) = d :=
        Fin.ext hdr.symm
      rw [if_pos ⟨hdr, by decide⟩, if_pos ⟨hdr, rfl⟩, hdfin]
      simp only [Side.outer_index, Side.outer_coef]
      ring
    · rw [if_neg (fun hcc => hdr hcc.1), if_neg (fun hcc => hdr hcc.1)]

theorem APFrustrum.decompose_first_col1 {D : ℕ} (f : APFrustrum D)
    (hrec : f.recursion_dimension < D) (d : Fin D) :
    f.decompose_first.output_aabb.bounds d 1 =
      if d.val = f.recursion_dimension ∧ f.side = Side.Min then
        f.output_aabb.bounds d 0 + ((f.steps : ℤ) - 1)
      else f.output_aabb.bounds d 1 := by
  show setB f.output_aabb.bounds f.recursion_dimension f.side.inner_index
      (getB f.output_aabb.bounds f.recursion_dimension f.side.outer_index
        + f.side.outer_coef * ((f.steps : ℤ) - 1)) d 1 = _
  unfold setB getB
  rw [dif_pos hrec]
  cases f.side with
  | Min =>
    by_cases hdr : d.val = f.recursion_dimension
    · have hdfin : (⟨f.recursion_dimension, hrec⟩ : Fin D) = d :=
        Fin.ext hdr.symm
      rw [if_pos ⟨hdr, by decide⟩, if_pos ⟨hdr, rfl⟩, hdfin]
      simp only [Side.outer_index, Side.outer_coef]
      ring
    · rw [if_neg (fun hcc => hdr hcc.1), if_neg (fun hcc => hdr hcc.1)]
  | Max =>
    rw [if_neg (fun hcc => absurd hcc.2 (by decide)),
      if_neg (fun hcc => absurd hcc.2 (by decide))]

theorem APFrustrum.decompose_pair_min_col0 {D : ℕ} (f : APFrustrum D)
    (j : ℕ) (d : Fin D) :
    (f.decompose_pair j).1.output_aabb.bounds d 0 =
      f.decompose_remainder j d 0 := by
  show setB (f.decompose_remainder j) (f.recursion_dimension + 1 + j) 1
      (getB (f.decompose_remainder j) (f.recursion_dimension + 1 + j) 0
        + ((f.steps : ℤ) - 1)) d 0 = _
  unfold setB
  rw [if_neg (fun hcc => absurd hcc.2 (by decide))]

theorem APFrustrum.decompose_pair_min_col1 {D : ℕ} (f : APFrustrum D)
    (hrec : f.recursion_dimension < D) (j : ℕ)
    (hjD : f.recursion_dimension + 1 + j < D) (d : Fin D) :
    (f.decompose_pair j).1.output_aabb.bounds d 1 =
      if d.val = f.recursion_dimension + 1 + j then
        f.output_aabb.bounds d 0 + ((f.steps : ℤ) - 1)
      else f.decompose_remainder j d 1 := by
  show setB (f.decompose_remainder j) (f.recursion_dimension + 1 + j) 1
      (getB (f.decompose_remainder j) (f.recursion_dimension + 1 + j) 0
        + ((f.steps : ℤ) - 1)) d 1 = _
  unfold setB getB
  by_cases hd : d.val = f.recursion_dimension + 1 + j
  · have hdfin : (⟨f.recursion_dimension + 1 + j, hjD⟩ : Fin D) = d :=
      Fin.ext hd.symm
    rw [if_pos ⟨hd, rfl⟩, if_pos hd, dif_pos hjD, hdfin,
      f.decompose_remainder_col0 hrec j hjD.le d]
    rw [if_neg (fun hcc => hcc.elim (fun h1 => absurd h1.1 (by omega))
      (fun h2 => absurd h2.2 (by omega)))]
  · rw [if_neg (fun hcc => hd hcc.1), if_neg hd]

theorem APFrustrum.decompose_pair_max_col1 {D : ℕ} (f : APFrustrum D)
    (j : ℕ) (d : Fin D) :
    (f.decompose_pair j).2.output_aabb.bounds d 1 =
      f.decompose_remainder j d 1 := by
  show setB (f.decompose_remainder j) (f.recursion_dimension + 1 + j) 0
      (getB (f.decompose_remainder j) (f.recursion_dimension + 1 + j) 1
        - ((f.steps : ℤ) - 1)) d 1 = _
  unfold setB
  rw [if_neg (fun hcc => absurd hcc.2 (by decide))]

theorem APFrustrum.decompose_pair_max_col0 {D : ℕ} (f : APFrustrum D)
    (hrec : f.recursion_dimension < D) (j : ℕ)
    (hjD : f.recursion_dimension + 1 + j < D) (d : Fin D) :
    (f.decompose_pair j).2.output_aabb.bounds d 0 =
      if d.val = f.recursion_dimension + 1 + j then
        f.output_aabb.bounds d 1 - ((f.steps : ℤ) - 1)
      else f.decompose_remainder j d 0 := by
  show setB (f.decompose_remainder j) (f.recursion_dimension + 1 + j) 0
      (getB (f.decompose_remainder j) (f.recursion_dimension + 1 + j) 1
        - ((f.steps : ℤ) - 1)) d 0 = _
  unfold setB getB
  by_cases hd : d.val = f.recursion_dimension + 1 + j
  · have hdfin : (⟨f.recursion_dimension + 1 + j, hjD⟩ : Fin D) = d :=
      Fin.ext hd.symm
    rw [if_pos ⟨hd, rfl⟩, if_pos hd, dif_pos hjD, hdfin,
      f.decompose_remainder_col1 hrec j hjD.le d]
    rw [if_neg (fun hcc => hcc.elim (fun h1 => absurd h1.1 (by omega))
      (fun h2 => absurd h2.2 (by omega)))]
  · rw [if_neg (fun hcc => hd hcc.1), if_neg hd]

/-- C10 counterexample: in 3D with `steps = 1` and every extent exactly
`2 × steps`, the hypotheses of the claim hold but `decompose` produces a
child whose output box is invalid (`[1,1] × [1,0] × [0,0]`), refuting the
claim's validity/containment part. -/
theorem C10_decompose_counterexample :
    (∀ d : Fin 3, 2 * (1 : ℤ)
        ≤ (AABB.mk ![![0, 1], ![0, 1], ![0, 1]]).exclusive_bounds d)
    ∧ ¬ (∀ g ∈ (APFrustrum.mk ⟨![![0, 1], ![0, 1], ![0, 1]]⟩ 0
          Side.Min 1).decompose,
        g.output_aabb.check_validity
        ∧ (AABB.mk ![![0, 1], ![0, 1], ![0, 1]]).contains_aabb
            g.output_aabb) := by
  decide

/-- C10 (amended): `decompose` returns exactly
`1 + 2 (D - 1 - recursion_dimension)` sub-frustrums, each with the same step
count; and when every dimension of the output box has extent at least
`2 × steps + 1`, every sub-frustrum's output box is a valid box contained in
the original output box. -/
theorem C10_decompose {D : ℕ} (f : APFrustrum D)
    (hrec : f.recursion_dimension < D) (hsteps : 1 ≤ f.steps) :
    f.decompose.length = 1 + 2 * (D - 1 - f.recursion_dimension)
    ∧ (∀ g ∈ f.decompose, g.steps = f.steps)
    ∧ ((∀ d : Fin D,
          2 * (f.steps : ℤ) + 1 ≤ f.output_aabb.exclusive_bounds d) →
        ∀ g ∈ f.decompose, g.output_aabb.check_validity
          ∧ f.output_aabb.contains_aabb g.output_aabb) := by
  refine ⟨?_, ?_, ?_⟩
  · show (f.decompose_first
        :: f.decompose_children (D - (f.recursion_dimension + 1))).length = _
    rw [List.length_cons, f.decompose_children_length]
    omega
  · intro g hg
    rcases List.mem_cons.mp hg with h | h
    · rw [h]
      rfl
    · obtain ⟨j, hj, hor⟩ := (f.mem_decompose_children _ g).mp h
      rcases hor with h1 | h1 <;> rw [h1] <;> rfl
  · intro hext g hg
    have hbound : ∀ d : Fin D, 2 * (f.steps : ℤ) + 1
        ≤ f.output_aabb.bounds d 1 - f.output_aabb.bounds d 0 + 1 :=
      fun d => hext d
    rcases List.mem_cons.mp hg with h | h
    · subst h
      refine ⟨fun d => ?_, fun d => ?_⟩
      · rw [f.decompose_first_col0 hrec d, f.decompose_first_col1 hrec d]
        have hb := hbound d
        split_ifs with h1 h2
        · exact absurd (h1.2.symm.trans h2.2) (by decide)
        · omega
        · omega
        · omega
      · rw [f.decompose_first_col0 hrec d, f.decompose_first_col1 hrec d]
        have hb := hbound d
        split_ifs with h1 h2
        · exact absurd (h1.2.symm.trans h2.2) (by decide)
        · constructor <;> omega
        · constructor <;> omega
        · constructor <;> omega
    · obtain ⟨j, hjn, hor⟩ := (f.mem_decompose_children _ g).mp h
      have hjD : f.recursion_dimension + 1 + j < D := by omega
      rcases hor with h1 | h1 <;> subst h1
      · refine ⟨fun d => ?_, fun d => ?_⟩ <;>
          rw [f.decompose_pair_min_col0 j d,
            f.decompose_pair_min_col1 hrec j hjD d] <;>
          have hb := hbound d <;>
          by_cases hdj : d.val = f.recursion_dimension + 1 + j
        · rw [if_pos hdj,
            f.rem_untouched hrec j hjD.le d 0 (by omega) (by omega)]
          omega
        · rw [if_neg hdj]
          rcases f.rem_col0_cases hrec j hjD.le d with h0 | h0 <;>
            rcases f.rem_col1_cases hrec j hjD.le d with hone | hone <;>
            omega
        · rw [if_pos hdj,
            f.rem_untouched hrec j hjD.le d 0 (by omega) (by omega)]
          constructor <;> omega
        · rw [if_neg hdj]
          rcases f.rem_col0_cases hrec j hjD.le d with h0 | h0 <;>
            rcases f.rem_col1_cases hrec j hjD.le d with hone | hone <;>
            constructor <;> omega
      · refine ⟨fun d => ?_, fun d => ?_⟩ <;>
          rw [f.decompose_pair_max_col0 hrec j hjD d,
            f.decompose_pair_max_col1 j d] <;>
          have hb := hbound d <;>
          by_cases hdj : d.val = f.recursion_dimension + 1 + j
        · rw [if_pos hdj,
            f.rem_untouched hrec j hjD.le d 1 (by omega) (by omega)]
          omega
        · rw [if_neg hdj]
          rcases f.rem_col0_cases hrec j hjD.le d with h0 | h0 <;>
            rcases f.rem_col1_cases hrec j hjD.le d with hone | hone <;>
            omega
        · rw [if_pos hdj,
            f.rem_untouched hrec j hjD.le d 1 (by omega) (by omega)]
          constructor <;> omega
        · rw [if_neg hdj]
          rcases f.rem_col0_cases hrec j hjD.le d with h0 | h0 <;>
            rcases f.rem_col1_cases hrec j hjD.le d with hone | hone <;>
            constructor <;> omega

/-- C10 witness: the amended statement evaluated on the 3D frustrum with
output `[0,4]³`, `recursion_dimension = 0`, `side = Min`, `steps = 2`
(extent 5 = 2 × steps + 1 in every dimension). -/
theorem C10_decompose_witness :
    (APFrustrum.mk ⟨![![0, 4], ![0, 4], ![0, 4]]⟩ 0 Side.Min 2).decompose.length
        = 1 + 2 * (3 - 1 - 0)
    ∧ (∀ g ∈ (APFrustrum.mk ⟨![![0, 4], ![0, 4], ![0, 4]]⟩ 0
          Side.Min 2).decompose, g.steps = 2)
    ∧ (∀ g ∈ (APFrustrum.mk ⟨![![0, 4], ![0, 4], ![0, 4]]⟩ 0
          Side.Min 2).decompose,
        g.output_aabb.check_validity
        ∧ (AABB.mk ![![0, 4], ![0, 4], ![0, 4]]).contains_aabb
            g.output_aabb) :=
  have h := C10_decompose
    (APFrustrum.mk ⟨![![0, 4], ![0, 4], ![0, 4]]⟩ 0 Side.Min 2)
    (by decide) (by decide)
  ⟨h.1, h.2.1, h.2.2 (by decide)⟩

/-! Embedding of `trapezoid_apply` (`solver/trapezoid.rs`) for claim C4. -/

/-- Modelled from the spec: `SliceDomain / Domain` (the `domain` module is
not among the provided sources) — a view pairing an AABB with field values.
Values are abstracted as a total function on coordinates; the executor only
ever reads cells inside the current AABB that were written under the same
AABB. -/
structure Domain (D : ℕ) (α : Type) where
  aabb : AABB D
  vals : Coord D → α

/-- `par_stencil::apply`: write, at every coordinate of the output domain's
box, the stencil applied to arguments gathered from the input domain; other
cells keep their previous contents.  The function `gather` abstracts
`c ↦ stencil.apply(gather_args(stencil, bc, input, c))`, mirroring the
source's genericity over the stencil and the boundary-condition oracle. -/
def par_stencil_apply {D : ℕ} {α : Type}
    (gather : Domain D α → Coord D → α)
    (input output : Domain D α) : Domain D α :=
  ⟨output.aabb,
    fun c => if output.aabb.contains c then gather input c else output.vals c⟩

/-- The trapezoid slopes computed at the top of `trapezoid_apply`:
element-wise multiply `stencil_slopes` by `sloped_sides`, then negate the
max column. -/
def trapezoid_slopes {D : ℕ} (sloped_sides stencil_slopes : Bounds D) :
    Bounds D :=
  fun d i =>
    if i = 1 then -(stencil_slopes d 1 * sloped_sides d 1)
    else stencil_slopes d 0 * sloped_sides d 0

/-- One iteration of the loop in `trapezoid_apply`: advance the output box,
set the output domain's AABB to it, apply the stencil into it, and swap the
two domains.  The state is `(input, output, output_box)`. -/
def trapezoid_step {D : ℕ} {α : Type} (gather : Domain D α → Coord D → α)
    (ts : Bounds D) (st : Domain D α × Domain D α × AABB D) :
    Domain D α × Domain D α × AABB D :=
  let box' := st.2.2.add_bounds_diff ts
  let out' := par_stencil_apply gather st.1 ⟨box', st.2.1.vals⟩
  (out', st.1, box')

/-- The loop of `trapezoid_apply`, run `t` times. -/
def trapezoid_loop {D : ℕ} {α : Type} (gather : Domain D α → Coord D → α)
    (ts : Bounds D) : ℕ → Domain D α × Domain D α × AABB D →
      Domain D α × Domain D α × AABB D
  | 0 => fun st => st
  | t + 1 => fun st => trapezoid_step gather ts (trapezoid_loop gather ts t st)

/-- `trapezoid_apply`: initialize the output box to the input AABB, run
`steps` loop iterations, and swap once more so the final result sits in the
caller's `output` slot.  The returned pair is the contents of the caller's
`(input, output)` slots after the call. -/
def trapezoid_apply {D : ℕ} {α : Type} (gather : Domain D α → Coord D → α)
    (sloped_sides stencil_slopes : Bounds D) (steps : ℕ)
    (input output : Domain D α) : Domain D α × Domain D α :=
  let ts := trapezoid_slopes sloped_sides stencil_slopes
  let st := trapezoid_loop gather ts steps (input, output, input.aabb)
  (st.2.1, st.1)

/-- The shrinking output box after `t` iterations of `trapezoid_apply`. -/
def trapezoid_output_box {D : ℕ} (B : AABB D) (ts : Bounds D) (t : ℕ) :
    AABB D :=
  ⟨fun d i => B.bounds d i + (t : ℤ) * ts d i⟩

/-- Reference single-buffer evolution of the trapezoid solve: at each step
the values inside the new output box are the stencil applied to the previous
step's domain, and values outside are carried over. -/
def trapezoid_reference {D : ℕ} {α : Type}
    (gather : Domain D α → Coord D → α) (ts : Bounds D) (B : AABB D)
    (u0 : Coord D → α) : ℕ → Coord D → α
  | 0 => u0
  | t + 1 => fun c =>
    if (trapezoid_output_box B ts (t + 1)).contains c then
      gather ⟨trapezoid_output_box B ts t,
        trapezoid_reference gather ts B u0 t⟩ c
    else trapezoid_reference gather ts B u0 t c

theorem trapezoid_output_box_zero {D : ℕ} (B : AABB D) (ts : Bounds D) :
    trapezoid_output_box B ts 0 = B := by
  rw [AABB.ext_iff_bounds]
  funext d i
  show B.bounds d i + (0 : ℤ) * ts d i = B.bounds d i
  ring

theorem trapezoid_output_box_succ {D : ℕ} (B : AABB D) (ts : Bounds D)
    (t : ℕ) :
    (trapezoid_output_box B ts t).add_bounds_diff ts
      = trapezoid_output_box B ts (t + 1) := by
  rw [AABB.ext_iff_bounds]
  funext d i
  show B.bounds d i + (t : ℤ) * ts d i + ts d i
      = B.bounds d i + ((t : ℕ) + 1 : ℤ) * ts d i
  ring

theorem trapezoid_loop_invariant {D : ℕ} {α : Type}
    (gather : Domain D α → Coord D → α) (ts : Bounds D)
    (input output : Domain D α) (B : AABB D)
    (hgather : ∀ (d₁ d₂ : Domain D α) (c : Coord D), d₁.aabb = d₂.aabb →
      (∀ x : Coord D, d₁.aabb.contains x → d₁.vals x = d₂.vals x) →
      gather d₁ c = gather d₂ c)
    (hin : input.aabb = B) :
    ∀ t : ℕ,
      (trapezoid_loop gather ts t (input, output, input.aabb)).1.aabb
          = trapezoid_output_box B ts t
      ∧ (trapezoid_loop gather ts t (input, output, input.aabb)).2.2
          = trapezoid_output_box B ts t
      ∧ ∀ c : Coord D, (trapezoid_output_box B ts t).contains c →
          (trapezoid_loop gather ts t (input, output, input.aabb)).1.vals c
            = trapezoid_reference gather ts B input.vals t c := by
  intro t
  induction t with
  | zero =>
    refine ⟨?_, ?_, fun c _ => rfl⟩
    · show input.aabb = _
      rw [hin, trapezoid_output_box_zero]
    · show input.aabb = _
      rw [hin, trapezoid_output_box_zero]
  | succ t ih =>
    obtain ⟨ih1, ih2, ih3⟩ := ih
    refine ⟨?_, ?_, ?_⟩
    · show ((trapezoid_loop gather ts t
          (input, output, input.aabb)).2.2.add_bounds_diff ts) = _
      rw [ih2, trapezoid_output_box_succ]
    · show ((trapezoid_loop gather ts t
          (input, output, input.aabb)).2.2.add_bounds_diff ts) = _
      rw [ih2, trapezoid_output_box_succ]
    · intro c hc
      show (if ((trapezoid_loop gather ts t
            (input, output, input.aabb)).2.2.add_bounds_diff ts).contains c
          then gather (trapezoid_loop gather ts t
            (input, output, input.aabb)).1 c
          else _) = _
      rw [ih2, trapezoid_output_box_succ, if_pos hc]
      show _ = trapezoid_reference gather ts B input.vals (t + 1) c
      unfold trapezoid_reference
      rw [if_pos hc]
      exact hgather _ _ c ih1 (fun x hx => ih3 x (by rw [← ih1]; exact hx))

/-- C4: `trapezoid_apply` on two domains sharing the AABB `B` leaves the
final field values in the caller's `out` slot; that domain's AABB equals `B`
moved inward on each face by `steps × sloped_sides × stencil_slopes` (faces
with mask 0 unmoved), and its values inside that box are the `steps`-fold
stencil evolution of the input values. -/
theorem C4_trapezoid_apply {D : ℕ} {α : Type}
    (gather : Domain D α → Coord D → α)
    (sloped_sides stencil_slopes : Bounds D) (steps : ℕ)
    (input output : Domain D α) (B : AABB D)
    (hgather : ∀ (d₁ d₂ : Domain D α) (c : Coord D), d₁.aabb = d₂.aabb →
      (∀ x : Coord D, d₁.aabb.contains x → d₁.vals x = d₂.vals x) →
      gather d₁ c = gather d₂ c)
    (hsteps : 1 ≤ steps) (hin : input.aabb = B) (hout : output.aabb = B) :
    ((trapezoid_apply gather sloped_sides stencil_slopes steps
        input output).2.aabb
      = trapezoid_output_box B
          (trapezoid_slopes sloped_sides stencil_slopes) steps)
    ∧ (∀ d : Fin D,
        (trapezoid_output_box B
            (trapezoid_slopes sloped_sides stencil_slopes) steps).bounds d 0
          = B.bounds d 0
            + (steps : ℤ) * (sloped_sides d 0 * stencil_slopes d 0)
        ∧ (trapezoid_output_box B
            (trapezoid_slopes sloped_sides stencil_slopes) steps).bounds d 1
          = B.bounds d 1
            - (steps : ℤ) * (sloped_sides d 1 * stencil_slopes d 1))
    ∧ (∀ c : Coord D,
        (trapezoid_output_box B
            (trapezoid_slopes sloped_sides stencil_slopes) steps).contains c →
        (trapezoid_apply gather sloped_sides stencil_slopes steps
            input output).2.vals c
          = trapezoid_reference gather
              (trapezoid_slopes sloped_sides stencil_slopes) B
              input.vals steps c) := by
  have hinv := trapezoid_loop_invariant gather
    (trapezoid_slopes sloped_sides stencil_slopes) input output B
    hgather hin steps
  refine ⟨hinv.1, fun d => ⟨?_, ?_⟩, fun c hc => hinv.2.2 c hc⟩
  · show B.bounds d 0 + (steps : ℤ) * (if (0 : Fin 2) = 1 then
        -(stencil_slopes d 1 * sloped_sides d 1)
      else stencil_slopes d 0 * sloped_sides d 0) = _
    rw [if_neg (by decide)]
    ring
  · show B.bounds d 1 + (steps : ℤ) * (if (1 : Fin 2) = 1 then
        -(stencil_slopes d 1 * sloped_sides d 1)
      else stencil_slopes d 0 * sloped_sides d 0) = _
    rw [if_pos rfl]
    ring

/-- Concrete gather function for the C4 witness: the identity stencil with a
zero boundary condition (reads outside the input box yield 0). -/
def c4gather : Domain 1 ℤ → Coord 1 → ℤ :=
  fun dm c => if dm.aabb.contains c then dm.vals c else 0

/-- Concrete input domain for the C4 witness: the box `[0,4]`, all sevens. -/
def c4input : Domain 1 ℤ := ⟨⟨![![0, 4]]⟩, fun _ => 7⟩

/-- Concrete output domain for the C4 witness: the box `[0,4]`, zeros. -/
def c4output : Domain 1 ℤ := ⟨⟨![![0, 4]]⟩, fun _ => 0⟩

/-- C4 witness: one step of `trapezoid_apply` on `[0,4]` with unit slopes
leaves the result in the `out` slot, on the box `[1,3]`, matching the
reference evolution at the coordinate `2`. -/
theorem C4_trapezoid_apply_witness :
    ((trapezoid_apply c4gather ![![1, 1]] ![![1, 1]] 1
        c4input c4output).2.aabb
      = trapezoid_output_box ⟨![![0, 4]]⟩
          (trapezoid_slopes ![![1, 1]] ![![1, 1]]) 1)
    ∧ ((trapezoid_apply c4gather ![![1, 1]] ![![1, 1]] 1
        c4input c4output).2.vals ![2]
      = trapezoid_reference c4gather
          (trapezoid_slopes ![![1, 1]] ![![1, 1]]) ⟨![![0, 4]]⟩
          c4input.vals 1 ![2]) :=
  have hgather : ∀ (d₁ d₂ : Domain 1 ℤ) (c : Coord 1), d₁.aabb = d₂.aabb →
      (∀ x : Coord 1, d₁.aabb.contains x → d₁.vals x = d₂.vals x) →
      c4gather d₁ c = c4gather d₂ c := by
    intro d₁ d₂ c h1 h2
    unfold c4gather
    rw [h1]
    by_cases hc : d₂.aabb.contains c
    · rw [if_pos hc, if_pos hc]
      exact h2 c (by rw [h1]; exact hc)
    · rw [if_neg hc, if_neg hc]
  have h := C4_trapezoid_apply c4gather ![![1, 1]] ![![1, 1]] 1
    c4input c4output ⟨![![0, 4]]⟩ hgather (by decide) rfl rfl
  ⟨h.1, h.2.2 ![2] (by decide)⟩

end NHLS
